import Mathlib

set_option maxHeartbeats 1000000

/-!
Verification development for the banana-slides image-to-editable-PPT
pipeline.  The verification checkpoint (`VerificationModal` /
`VerificationCanvas`), the Vertex AI retry wrapper, the background
reconstructor contract and the orchestrator state machine are embedded
shallowly and the spec's claims about them are settled as theorems.
-/

namespace BananaSlides

/-- Per-element disposition shown in the verification modal
(`ElementStatus` in the frontend types): `keep` preserves the original
pixels, `erase` flags the region for regeneration. -/
inductive ElementStatus where
  | keep
  | erase
deriving DecidableEq, Repr

/-- A node of the layout tree as consumed by `VerificationModal` /
`VerificationCanvas`: an `element_id` string and an ordered list of
children.  (Bounding box, type and content are not needed by the
claims under verification.) -/
inductive LayoutElement where
  | mk (element_id : String) (children : List LayoutElement)

/-- The `element_id` field of a layout element. -/
def LayoutElement.element_id : LayoutElement → String
  | .mk i _ => i

/-- The `children` field of a layout element. -/
def LayoutElement.children : LayoutElement → List LayoutElement
  | .mk _ c => c

/-- `getAllElementIds` from the `VerificationModal` initializer: a
depth-first walk (parent before children) that pushes `elem.element_id`
only when it is truthy, i.e. a non-empty string, and always recurses
into `elem.children`. -/
def getAllElementIds : List LayoutElement → List String
  | [] => []
  | .mk i cs :: rest =>
      (if i = "" then [] else [i]) ++ getAllElementIds cs ++ getAllElementIds rest
termination_by es => sizeOf es

/-- The unrestricted depth-first traversal of a forest, as performed by
`VerificationCanvas.getAllElements`: every node's id is listed, parent
before children, in sibling order. -/
def traverseIds : List LayoutElement → List String
  | [] => []
  | .mk i cs :: rest => i :: (traverseIds cs ++ traverseIds rest)
termination_by es => sizeOf es

/-- JavaScript object assignment `m[k] = v` on a string-keyed record,
modelled on an insertion-ordered association list: an existing key is
updated in place, a new key is appended. -/
def assign {α : Type} (m : List (String × α)) (k : String) (v : α) :
    List (String × α) :=
  if m.any (fun p => p.1 = k) then
    m.map (fun p => if p.1 = k then (k, v) else p)
  else
    m ++ [(k, v)]

/-- JavaScript property read `m[k]`: the value stored at `k`, or
`none` when the key is absent (`undefined`). -/
def getKey {α : Type} (m : List (String × α)) (k : String) : Option α :=
  (m.find? (fun p => p.1 = k)).map (fun p => p.2)

/-- `Object.keys m`: the keys of a record in insertion order. -/
def keysOf {α : Type} (m : List (String × α)) : List String :=
  m.map (fun p => p.1)

/-- The per-page element-status record `elementId → status`. -/
abbrev StatusMap := List (String × ElementStatus)

/-- The whole `elementStatusMap` state: `pageId → (elementId → status)`. -/
abbrev VerificationMap := List (String × StatusMap)

/-- One entry of the `pagesData` prop of `VerificationModal`: the page
id, the optional layout analysis (its `elements` forest), and the
extractor's `confirmedElementIds` baseline erase recommendation. -/
structure PageData where
  pageId : String
  layoutAnalysis : Option (List LayoutElement)
  confirmedElementIds : List String

/-- The body of the `elementStatusMap` initializer for one page: when a
layout analysis is present, every id returned by `getAllElementIds`
is assigned `erase` if it is in `confirmedElementIds` and `keep`
otherwise; without an analysis the page's record stays empty. -/
def initPage (pd : PageData) : StatusMap :=
  match pd.layoutAnalysis with
  | some elems =>
      (getAllElementIds elems).foldl
        (fun m id =>
          assign m id
            (if id ∈ pd.confirmedElementIds then ElementStatus.erase
             else ElementStatus.keep))
        []
  | none => []

/-- The `elementStatusMap` initializer of `VerificationModal`: builds
the per-page record for every entry of `pagesData`. -/
def initMap (pagesData : List PageData) : VerificationMap :=
  pagesData.foldl (fun acc pd => assign acc pd.pageId (initPage pd)) []

/-- `handleElementClick` of `VerificationModal`: copies the page's
record (an absent page reads as `{}`), then sets
`pageStatus[elementId] = pageStatus[elementId] === 'keep' ? 'erase' : 'keep'`
— note that an id with no entry (`undefined`) is *inserted* with
status `keep`. -/
def toggle (m : VerificationMap) (pageId elementId : String) :
    VerificationMap :=
  let pageStatus := (getKey m pageId).getD []
  let newStatus :=
    if getKey pageStatus elementId = some ElementStatus.keep then
      ElementStatus.erase
    else ElementStatus.keep
  assign m pageId (assign pageStatus elementId newStatus)

/-- `handleSelectAll` / `handleDeselectAll` of `VerificationModal`:
every key of the page's current record is set to the given status. -/
def bulkSet (m : VerificationMap) (pageId : String) (st : ElementStatus) :
    VerificationMap :=
  let pageStatus := (getKey m pageId).getD []
  assign m pageId (pageStatus.map (fun p => (p.1, st)))

/-- The reset button's `onClick` of `VerificationModal`: every key of
the page's *current* record is set back to `erase` when it is in the
page's `confirmedElementIds` and to `keep` otherwise. -/
def reset (m : VerificationMap) (pageId : String)
    (confirmedElementIds : List String) : VerificationMap :=
  let pageStatus := (getKey m pageId).getD []
  assign m pageId
    (pageStatus.map
      (fun p =>
        (p.1,
         if p.1 ∈ confirmedElementIds then ElementStatus.erase
         else ElementStatus.keep)))

/-- `handleConfirm` of `VerificationModal` (the `materialize` read):
for every page of `pagesData`, the ids whose current status is
`erase`, in record order. -/
def materialize (pagesData : List PageData) (m : VerificationMap) :
    List (String × List String) :=
  pagesData.foldl
    (fun acc pd =>
      assign acc pd.pageId
        ((((getKey m pd.pageId).getD []).filter
            (fun p => p.2 = ElementStatus.erase)).map (fun p => p.1)))
    []

/-- `VerificationCanvas.renderElement`'s status read:
`elementStatus[element.element_id] || 'erase'` — a missing entry
defaults to `erase`. -/
def renderStatus (elementStatus : StatusMap) (elementId : String) :
    ElementStatus :=
  (getKey elementStatus elementId).getD ElementStatus.erase

/-! ### Operation sequences on the verification state -/

/-- A user mutation of the verification state: an element-click toggle
or a select-all / deselect-all bulk set, each targeting one page. -/
inductive VOp where
  | toggleOp (pageId elementId : String)
  | bulkSetOp (pageId : String) (st : ElementStatus)
deriving DecidableEq, Repr

/-- Apply one user mutation. -/
def applyOp (m : VerificationMap) : VOp → VerificationMap
  | .toggleOp p e => toggle m p e
  | .bulkSetOp p st => bulkSet m p st

/-- Apply a sequence of user mutations, oldest first. -/
def applyOps (m : VerificationMap) (ops : List VOp) : VerificationMap :=
  ops.foldl applyOp m

/-! ### Retry wrapper (`VertexAITool.withRetry`) -/

/-- The loop body of `VertexAITool.withRetry`: starting at attempt
index `i` with the last recorded error, run `attempt i`; success
returns immediately, failure records the error, sleeps
`Math.pow(2, i) * 1000` milliseconds and continues with the next index;
when the index reaches `retries` the last recorded error is rethrown
(`none` when no attempt ever ran, the JavaScript `undefined`).  The
second component records every backoff delay slept, in order. -/
def withRetryAux {ε α : Type} (attempt : Nat → Except ε α) (retries : Nat)
    (lastError : Option ε) (i : Nat) : Except (Option ε) α × List Nat :=
  if i < retries then
    match attempt i with
    | .ok a => (.ok a, [])
    | .error e =>
        let rest := withRetryAux attempt retries (some e) (i + 1)
        (rest.1, (2 ^ i * 1000) :: rest.2)
  else (.error lastError, [])
termination_by retries - i

/-- `VertexAITool.withRetry(fn, retries)`: run the attempts from index
`0` with no error recorded yet. -/
def withRetry {ε α : Type} (attempt : Nat → Except ε α) (retries : Nat) :
    Except (Option ε) α × List Nat :=
  withRetryAux attempt retries none 0

/-- The reconstruction error taxonomy of the spec (§7), restricted to
the reconstructor's two failure modes. -/
inductive ReconError where
  | ReconstructionTimeout
  | ReconstructionFailed
deriving DecidableEq, Repr

/-- Modelled from the spec: the BackgroundReconstructor's call of the
model through the retry wrapper — the reconstructor component itself is
not under src/, only `VertexAITool.withRetry` is.  Per §4.3,
"exhausted retries surface `ReconstructionTimeout`": an error escaping
the retry loop is reported as `ReconstructionTimeout`. -/
def reconstructWithRetry {ε α : Type} (attempt : Nat → Except ε α)
    (retries : Nat) : Except ReconError α × List Nat :=
  match withRetry attempt retries with
  | (.ok a, ds) => (.ok a, ds)
  | (.error _, ds) => (.error .ReconstructionTimeout, ds)

/-! ### PipelineOrchestrator task state machine (modelled from the spec) -/

/-- The task states of §4.5. -/
inductive TaskStatus where
  | PENDING
  | PROCESSING
  | AWAITING_VERIFICATION
  | COMPLETED
  | FAILED
deriving DecidableEq, Repr

/-- The pipeline stage in which a page failed. -/
inductive Stage where
  | Extract
  | Reconstruct
  | Assemble
deriving DecidableEq, Repr

/-- The structured task error: failing stage and failing page. -/
structure TaskError where
  stage : Stage
  page : Nat
deriving DecidableEq, Repr

/-- Modelled from the spec: a ConversionTask as the orchestrator
mutates it — the PipelineOrchestrator is not under src/.  `extracted`,
`reconstructed` and `assembled` track per-page progress; `confirmed`
records whether a `confirm` call has been accepted; `everAwaiting` and
`everReconstruct` are history flags recording whether the task has ever
been in AWAITING_VERIFICATION and whether any Reconstruct call has ever
been issued. -/
structure OrchTask where
  pages : List Nat
  manualConfirmation : Bool
  status : TaskStatus
  extracted : List Nat
  reconstructed : List Nat
  assembled : List Nat
  confirmed : Bool
  error : Option TaskError
  everAwaiting : Bool
  everReconstruct : Bool

/-- Modelled from the spec: `Orchestrator.create` returns a handle in
state PENDING with no per-page progress. -/
def createTask (pages : List Nat) (manualConfirmation : Bool) : OrchTask :=
  { pages := pages
    manualConfirmation := manualConfirmation
    status := .PENDING
    extracted := []
    reconstructed := []
    assembled := []
    confirmed := false
    error := none
    everAwaiting := false
    everReconstruct := false }

/-- The orchestration events of §4.5: begin processing, per-page
Extract completion, the collective halt in AWAITING_VERIFICATION, the
external `confirm` call, per-page Reconstruct / Assemble completion or
retry exhaustion, and final completion. -/
inductive OrchEvent where
  | startProcessing
  | extractDone (p : Nat)
  | enterAwaiting
  | confirm
  | reconstructDone (p : Nat)
  | reconstructFail (p : Nat)
  | assembleDone (p : Nat)
  | assembleFail (p : Nat)
  | complete
deriving DecidableEq, Repr

/-- Modelled from the spec: one transition of the task state machine
(§4.5); `none` means the event is rejected in the current state.
Processing starts from PENDING; Extract runs while PROCESSING; with
`manualConfirmation` the task halts in AWAITING_VERIFICATION once every
page is extracted, and Reconstruct calls are only issued after a
`confirm` (which is only accepted from AWAITING_VERIFICATION); a page's
Reconstruct or Assemble retry exhaustion moves the task to FAILED with
the failing stage and page recorded; the task completes when every page
is assembled.  Terminal states accept no event. -/
def step (t : OrchTask) : OrchEvent → Option OrchTask
  | .startProcessing =>
      if t.status = .PENDING then some { t with status := .PROCESSING }
      else none
  | .extractDone p =>
      if t.status = .PROCESSING ∧ p ∈ t.pages ∧ p ∉ t.extracted then
        some { t with extracted := p :: t.extracted }
      else none
  | .enterAwaiting =>
      if t.status = .PROCESSING ∧ t.manualConfirmation = true ∧
          ∀ q ∈ t.pages, q ∈ t.extracted then
        some { t with status := .AWAITING_VERIFICATION, everAwaiting := true }
      else none
  | .confirm =>
      if t.status = .AWAITING_VERIFICATION then
        some { t with status := .PROCESSING, confirmed := true }
      else none
  | .reconstructDone p =>
      if t.status = .PROCESSING ∧ p ∈ t.pages ∧ p ∈ t.extracted ∧
          (t.manualConfirmation = true → t.confirmed = true) then
        some { t with reconstructed := p :: t.reconstructed,
                      everReconstruct := true }
      else none
  | .reconstructFail p =>
      if t.status = .PROCESSING ∧ p ∈ t.pages ∧ p ∈ t.extracted ∧
          (t.manualConfirmation = true → t.confirmed = true) then
        some { t with status := .FAILED,
                      error := some ⟨.Reconstruct, p⟩,
                      everReconstruct := true }
      else none
  | .assembleDone p =>
      if t.status = .PROCESSING ∧ p ∈ t.reconstructed then
        some { t with assembled := p :: t.assembled }
      else none
  | .assembleFail p =>
      if t.status = .PROCESSING ∧ p ∈ t.reconstructed then
        some { t with status := .FAILED, error := some ⟨.Assemble, p⟩ }
      else none
  | .complete =>
      if t.status = .PROCESSING ∧ ∀ q ∈ t.pages, q ∈ t.assembled then
        some { t with status := .COMPLETED }
      else none

/-- Run a sequence of orchestration events; a rejected event leaves the
task unchanged. -/
def runEvents (t : OrchTask) (es : List OrchEvent) : OrchTask :=
  es.foldl (fun s e => (step s e).getD s) t

/-- The inductive invariant of the orchestrator state machine used to
settle the temporal claims: the history flags are consistent with the
per-page progress, the confirmation flag and the status, page failure
is recorded only in FAILED, and completion implies every page is
assembled. -/
def OrchInv (t : OrchTask) : Prop :=
  (t.status = TaskStatus.AWAITING_VERIFICATION → t.everAwaiting = true) ∧
  (t.confirmed = true → t.everAwaiting = true) ∧
  (t.manualConfirmation = true → t.everReconstruct = true →
    t.confirmed = true) ∧
  (∀ p ∈ t.assembled, p ∈ t.reconstructed) ∧
  (t.reconstructed ≠ [] → t.everReconstruct = true) ∧
  (t.status = TaskStatus.COMPLETED → ∀ q ∈ t.pages, q ∈ t.assembled) ∧
  (t.error ≠ none → t.status = TaskStatus.FAILED)

/-! ### BackgroundReconstructor image contract (modelled from the spec) -/

/-- An opaque raster page image: width and height in pixels and a pixel
function (packed colour value per coordinate). -/
structure PageImage where
  width : Nat
  height : Nat
  pixel : Nat → Nat → Nat

/-- An axis-aligned erase region in page-pixel coordinates. -/
structure Rect where
  x0 : Nat
  y0 : Nat
  x1 : Nat
  y1 : Nat

/-- Point membership of a rectangle (inclusive bounds). -/
def Rect.containsPt (r : Rect) (x y : Nat) : Bool :=
  decide (r.x0 ≤ x) && decide (x ≤ r.x1) && decide (r.y0 ≤ y) && decide (y ≤ r.y1)

/-- Whether a point lies in any of the erase regions. -/
def inRegions (rs : List Rect) (x y : Nat) : Bool :=
  rs.any (fun r => r.containsPt x y)

/-- A rectangle grown by a margin on every side (clamped at zero). -/
def Rect.dilate (r : Rect) (margin : Nat) : Rect :=
  ⟨r.x0 - margin, r.y0 - margin, r.x1 + margin, r.y1 + margin⟩

/-- Every erase region grown by the margin. -/
def dilateRegions (rs : List Rect) (margin : Nat) : List Rect :=
  rs.map (fun r => r.dilate margin)

/-- The inpaint method family of the spec. -/
inductive InpaintMethod where
  | fast
  | generative
  | hybrid
  | offline
deriving DecidableEq, Repr

/-- Modelled from the spec: the `fast` single-pass text-removal fill of
the BackgroundReconstructor (the reconstructor implementation is not
under src/).  The coarse fill is abstracted as `fill`; pixels inside
the erase regions take the fill, all others keep the input pixel, and
the dimensions are those of the input. -/
def reconstructFast (img : PageImage) (regions : List Rect)
    (fill : Nat → Nat → Nat) : PageImage :=
  ⟨img.width, img.height,
   fun x y => if inRegions regions x y then fill x y else img.pixel x y⟩

/-- Modelled from the spec: the `generative` model-conditioned repaint,
which "can bleed slightly past the mask edge": repainted pixels are
confined to the erase regions dilated by the small fixed `margin`. -/
def reconstructGenerative (img : PageImage) (regions : List Rect)
    (margin : Nat) (repaint : Nat → Nat → Nat) : PageImage :=
  ⟨img.width, img.height,
   fun x y =>
     if inRegions (dilateRegions regions margin) x y then repaint x y
     else img.pixel x y⟩

/-- Modelled from the spec: `reconstruct(pageImage, eraseRegions,
method)`.  `hybrid` runs `fast` first and then `generative` restricted
to the same regions; `offline` is the local equivalent of the `fast`
pass. -/
def reconstruct (img : PageImage) (regions : List Rect)
    (method : InpaintMethod) (margin : Nat)
    (fill repaint : Nat → Nat → Nat) : PageImage :=
  match method with
  | .fast => reconstructFast img regions fill
  | .offline => reconstructFast img regions fill
  | .generative => reconstructGenerative img regions margin repaint
  | .hybrid =>
      reconstructGenerative (reconstructFast img regions fill) regions
        margin repaint

/-! ### Record-operation lemmas -/

theorem getKey_map_overwrite_self {α : Type} (m : List (String × α)) (k : String) (v : α) :
    getKey (m.map (fun p => if p.1 = k then (k, v) else p)) k =
      if (m.any (fun p => p.1 = k)) then some v else none := by
  induction m with
  | nil => simp [getKey]
  | cons p rest ih =>
      by_cases hp : p.1 = k
      · simp only [List.map_cons, if_pos hp, List.any_cons, getKey]
        rw [List.find?_cons_of_pos _ (by simp)]
        simp [hp]
      · simp only [List.map_cons, if_neg hp, List.any_cons, getKey]
        rw [List.find?_cons_of_neg _ (by simp [hp])]
        simp only [show (decide (p.1 = k)) = false from by simp [hp], Bool.false_or]
        simpa [getKey] using ih

theorem getKey_map_overwrite_ne {α : Type} (m : List (String × α)) (k k' : String) (v : α)
    (h : k' ≠ k) :
    getKey (m.map (fun p => if p.1 = k then (k, v) else p)) k' = getKey m k' := by
  induction m with
  | nil => simp [getKey]
  | cons p rest ih =>
      by_cases hp : p.1 = k
      · simp only [List.map_cons, if_pos hp, getKey]
        rw [List.find?_cons_of_neg _ (by simp [Ne.symm h]),
            List.find?_cons_of_neg _ (by simp [hp, Ne.symm h])]
        simpa [getKey] using ih
      · simp only [List.map_cons, if_neg hp, getKey]
        by_cases hq : p.1 = k'
        · rw [List.find?_cons_of_pos _ (by simp [hq]),
              List.find?_cons_of_pos _ (by simp [hq])]
        · rw [List.find?_cons_of_neg _ (by simp [hq]),
              List.find?_cons_of_neg _ (by simp [hq])]
          simpa [getKey] using ih

theorem getKey_assign_self {α : Type} (m : List (String × α)) (k : String) (v : α) :
    getKey (assign m k v) k = some v := by
  unfold assign
  split
  · rename_i h
    rw [getKey_map_overwrite_self, if_pos h]
  · rename_i h
    simp only [getKey, List.find?_append]
    cases hf : List.find? (fun p => decide (p.1 = k)) m with
    | some q =>
        exfalso
        apply h
        refine List.any_eq_true.mpr ⟨q, List.mem_of_find?_eq_some hf, ?_⟩
        have := List.find?_some hf
        simpa using this
    | none =>
        simp only [Option.none_or]
        rw [List.find?_cons_of_pos _ (by simp)]
        simp

theorem getKey_assign_ne {α : Type} (m : List (String × α)) (k k' : String) (v : α)
    (h : k' ≠ k) : getKey (assign m k v) k' = getKey m k' := by
  unfold assign
  split
  · exact getKey_map_overwrite_ne m k k' v h
  · simp only [getKey, List.find?_append]
    cases hf : List.find? (fun p => decide (p.1 = k')) m with
    | some q => simp
    | none =>
        simp only [Option.none_or]
        rw [List.find?_cons_of_neg _ (by simp [Ne.symm h])]
        simp

theorem keysOf_assign {α : Type} (m : List (String × α)) (k : String) (v : α) :
    keysOf (assign m k v) =
      if k ∈ keysOf m then keysOf m else keysOf m ++ [k] := by
  unfold assign keysOf
  have hmem : (m.any (fun p => p.1 = k)) = true ↔ k ∈ m.map (fun p => p.1) := by
    constructor
    · intro h
      rcases List.any_eq_true.mp h with ⟨p, hp, he⟩
      exact List.mem_map.mpr ⟨p, hp, of_decide_eq_true he⟩
    · intro h
      rcases List.mem_map.mp h with ⟨p, hp, he⟩
      exact List.any_eq_true.mpr ⟨p, hp, by simp [he]⟩
  split
  · rename_i h
    rw [if_pos (hmem.mp h)]
    simp only [List.map_map]
    apply List.map_congr_left
    intro p _
    by_cases hp : p.1 = k <;> simp [hp]
  · rename_i h
    rw [if_neg (fun hk => h (hmem.mpr hk))]
    simp

theorem getKey_foldl_assign {α : Type} (f : String → α) (l : List String)
    (m0 : List (String × α)) (k : String) :
    getKey (l.foldl (fun m id => assign m id (f id)) m0) k =
      if k ∈ l then some (f k) else getKey m0 k := by
  induction l generalizing m0 with
  | nil => simp
  | cons a rest ih =>
      simp only [List.foldl_cons, ih]
      by_cases hk : k ∈ rest
      · simp [hk]
      · by_cases ha : k = a
        · subst ha; simp [hk, getKey_assign_self]
        · simp [hk, ha, getKey_assign_ne _ _ _ _ ha]

/-! ### Traversal lemmas -/

/-- The modal's id gatherer is the unrestricted traversal with the
truthiness filter applied: exactly the empty-string ids are dropped. -/
theorem getAllElementIds_eq_filter (es : List LayoutElement) :
    getAllElementIds es = (traverseIds es).filter (fun id => id ≠ "") := by
  induction es using getAllElementIds.induct with
  | case1 => simp [getAllElementIds, traverseIds]
  | case2 i cs rest ih1 ih2 =>
      simp only [getAllElementIds, traverseIds, List.filter, ih1, ih2]
      by_cases h : i = "" <;> simp [h]

/-! ### Unfolding and further record lemmas -/

theorem toggle_def (m : VerificationMap) (p e : String) :
    toggle m p e =
      assign m p (assign ((getKey m p).getD []) e
        (if getKey ((getKey m p).getD []) e = some ElementStatus.keep then
          ElementStatus.erase
         else ElementStatus.keep)) := rfl

theorem bulkSet_def (m : VerificationMap) (p : String) (st : ElementStatus) :
    bulkSet m p st =
      assign m p (((getKey m p).getD []).map (fun q => (q.1, st))) := rfl

theorem reset_def (m : VerificationMap) (p : String) (c : List String) :
    reset m p c =
      assign m p (((getKey m p).getD []).map
        (fun q =>
          (q.1,
           if q.1 ∈ c then ElementStatus.erase else ElementStatus.keep))) := rfl

theorem applyOps_cons (m : VerificationMap) (op : VOp) (ops : List VOp) :
    applyOps m (op :: ops) = applyOps (applyOp m op) ops := rfl

theorem mem_of_mem_assign {α : Type} {m : List (String × α)} {k : String}
    {v : α} {q : String × α} (h : q ∈ assign m k v) : q = (k, v) ∨ q ∈ m := by
  unfold assign at h
  split at h
  · rcases List.mem_map.mp h with ⟨r, hr, he⟩
    by_cases hk : r.1 = k
    · left; rw [← he]; simp [hk]
    · right; rw [← he]; simp only [if_neg hk]; exact hr
  · rcases List.mem_append.mp h with h | h
    · right; exact h
    · left; simpa using h

theorem assign_assign_self {α : Type} (m : List (String × α)) (k : String)
    (v : α) : assign (assign m k v) k v = assign m k v := by
  unfold assign
  by_cases h : (m.any fun p => p.1 = k) = true
  · rw [if_pos h]
    have h2 : ((m.map fun p => if p.1 = k then (k, v) else p).any
        fun p => p.1 = k) = true := by
      rcases List.any_eq_true.mp h with ⟨q, hq, he⟩
      refine List.any_eq_true.mpr ⟨(k, v), List.mem_map.mpr ⟨q, hq, ?_⟩, by simp⟩
      simp [of_decide_eq_true he]
    rw [if_pos h2, List.map_map]
    apply List.map_congr_left
    intro q _
    by_cases hq : q.1 = k <;> simp [hq]
  · rw [if_neg h]
    have h2 : ((m ++ [(k, v)]).any fun p => p.1 = k) = true :=
      List.any_eq_true.mpr ⟨(k, v), by simp, by simp⟩
    rw [if_pos h2, List.map_append]
    congr 1
    · have hc : List.map (fun p => if p.1 = k then (k, v) else p) m =
          List.map id m := by
        apply List.map_congr_left
        intro q hq
        have hqk : ¬ q.1 = k := by
          intro hk
          exact h (List.any_eq_true.mpr ⟨q, hq, by simp [hk]⟩)
        simp [hqk]
      rw [hc, List.map_id]
    · simp

theorem getKey_foldl_assignKey_not_mem {α β : Type} (g : β → α)
    (key : β → String) (l : List β) (m0 : List (String × α)) (k : String)
    (h : k ∉ l.map key) :
    getKey (l.foldl (fun acc x => assign acc (key x) (g x)) m0) k =
      getKey m0 k := by
  induction l generalizing m0 with
  | nil => rfl
  | cons a rest ih =>
      simp only [List.map_cons, List.mem_cons, not_or] at h
      simp only [List.foldl_cons]
      rw [ih _ h.2, getKey_assign_ne _ _ _ _ h.1]

theorem getKey_foldl_assignKey_mem {α β : Type} (g : β → α)
    (key : β → String) (l : List β) (m0 : List (String × α)) (b : β)
    (hnodup : (l.map key).Nodup) (hb : b ∈ l) :
    getKey (l.foldl (fun acc x => assign acc (key x) (g x)) m0) (key b) =
      some (g b) := by
  induction l generalizing m0 with
  | nil => cases hb
  | cons a rest ih =>
      simp only [List.map_cons, List.nodup_cons] at hnodup
      rcases List.mem_cons.mp hb with hba | hbr
      · subst hba
        simp only [List.foldl_cons]
        rw [getKey_foldl_assignKey_not_mem _ _ _ _ _ hnodup.1,
            getKey_assign_self]
      · simp only [List.foldl_cons]
        exact ih _ hnodup.2 hbr

theorem foldl_assign_values {α : Type} (f : String → α) (l : List String)
    (m0 : List (String × α)) (h0 : ∀ q ∈ m0, q.2 = f q.1) :
    ∀ q ∈ l.foldl (fun m id => assign m id (f id)) m0, q.2 = f q.1 := by
  induction l generalizing m0 with
  | nil => exact h0
  | cons a rest ih =>
      intro q hq
      refine ih (assign m0 a (f a)) ?_ q hq
      intro r hr
      rcases mem_of_mem_assign hr with he | hm
      · rw [he]
      · exact h0 r hm

theorem eq_of_keysOf_eq_of_values {α : Type} (f : String → α) :
    ∀ (l1 l2 : List (String × α)), keysOf l1 = keysOf l2 →
      (∀ q ∈ l1, q.2 = f q.1) → (∀ q ∈ l2, q.2 = f q.1) → l1 = l2 := by
  intro l1
  induction l1 with
  | nil =>
      intro l2 hk _ _
      cases l2 with
      | nil => rfl
      | cons b rest2 => simp [keysOf] at hk
  | cons a rest ih =>
      intro l2 hk h1 h2
      cases l2 with
      | nil => simp [keysOf] at hk
      | cons b rest2 =>
          simp only [keysOf, List.map_cons, List.cons.injEq] at hk
          have hab : a = b := by
            refine Prod.ext_iff.mpr ⟨hk.1, ?_⟩
            rw [h1 a (List.mem_cons_self a rest),
                h2 b (List.mem_cons_self b rest2), hk.1]
          rw [hab, ih rest2 hk.2
            (fun q hq => h1 q (List.mem_cons_of_mem a hq))
            (fun q hq => h2 q (List.mem_cons_of_mem b hq))]

/-- The keys of the per-page status record are preserved by every
toggle on a key the page already has and by every bulk set, on any
page. -/
theorem applyOps_keysOf_page (P : String) (K : List String) (ops : List VOp)
    (hops : ∀ e, VOp.toggleOp P e ∈ ops → e ∈ K) :
    ∀ m : VerificationMap, keysOf ((getKey m P).getD []) = K →
      keysOf ((getKey (applyOps m ops) P).getD []) = K := by
  induction ops with
  | nil => intro m hm; exact hm
  | cons op rest ih =>
      intro m hm
      rw [applyOps_cons]
      refine ih (fun e he => hops e (List.mem_cons_of_mem _ he))
        (applyOp m op) ?_
      cases op with
      | toggleOp p e =>
          by_cases hp : p = P
          · subst hp
            have he : e ∈ K := hops e (List.mem_cons_self _ _)
            show keysOf ((getKey (toggle m p e) p).getD []) = K
            rw [toggle_def, getKey_assign_self]
            simp only [Option.getD_some]
            rw [keysOf_assign, hm, if_pos he]
          · show keysOf ((getKey (toggle m p e) P).getD []) = K
            rw [toggle_def, getKey_assign_ne _ _ _ _ (Ne.symm hp)]
            exact hm
      | bulkSetOp p st =>
          by_cases hp : p = P
          · subst hp
            show keysOf ((getKey (bulkSet m p st) p).getD []) = K
            rw [bulkSet_def, getKey_assign_self]
            simp only [Option.getD_some]
            rw [← hm]
            simp [keysOf, List.map_map]
          · show keysOf ((getKey (bulkSet m p st) P).getD []) = K
            rw [bulkSet_def, getKey_assign_ne _ _ _ _ (Ne.symm hp)]
            exact hm

/-- Looking up a page in the initial map: with distinct page ids, each
page reads back its own initial record. -/
theorem getKey_initMap (pds : List PageData) (pd : PageData)
    (hnodup : (pds.map PageData.pageId).Nodup) (hmem : pd ∈ pds) :
    getKey (initMap pds) pd.pageId = some (initPage pd) :=
  getKey_foldl_assignKey_mem initPage PageData.pageId pds [] pd hnodup hmem

/-- Every entry of a page's initial record carries its baseline value:
`erase` for a confirmed id, `keep` otherwise. -/
theorem initPage_values (pd : PageData) :
    ∀ q ∈ initPage pd,
      q.2 = if q.1 ∈ pd.confirmedElementIds then ElementStatus.erase
            else ElementStatus.keep := by
  unfold initPage
  cases pd.layoutAnalysis with
  | none => intro q hq; cases hq
  | some elems =>
      exact foldl_assign_values _ (getAllElementIds elems) []
        (fun q hq => by cases hq)

/-! ### Claim C1: initialization of the per-page status map -/

/-- C1 (amended): for every page with a layout analysis, the
`elementStatusMap` initializer produces exactly one entry per
*non-empty* id reachable by depth-first traversal of the page's element
tree — no other ids — and maps each such id to `erase` when it is in
the page's `confirmedElementIds` baseline erase set and to `keep`
otherwise.  (The initializer's JavaScript truthiness test drops an id
that is the empty string even though traversal reaches it.) -/
theorem C1_init_page_map (pd : PageData) (elems : List LayoutElement)
    (h : pd.layoutAnalysis = some elems) (id : String) :
    getKey (initPage pd) id =
      if id ∈ traverseIds elems ∧ id ≠ "" then
        some (if id ∈ pd.confirmedElementIds then ElementStatus.erase
              else ElementStatus.keep)
      else none := by
  unfold initPage
  rw [h, getKey_foldl_assign, getAllElementIds_eq_filter]
  by_cases hm : id ∈ traverseIds elems ∧ id ≠ ""
  · rw [if_pos (List.mem_filter.mpr ⟨hm.1, by simpa using hm.2⟩), if_pos hm]
  · rw [if_neg (fun hc => hm (by simpa [List.mem_filter] using hc)),
        if_neg hm]
    simp [getKey]

/-- Witness for C1 at the spec's §8 example page: elements
`[t1, t2, im1]` with baseline `{t1}` initialize to
`{t1: erase, t2: keep, im1: keep}` and an id outside the tree has no
entry. -/
theorem C1_init_page_map_witness :
    getKey (initPage ⟨"p1",
      some [.mk "t1" [], .mk "t2" [], .mk "im1" []], ["t1"]⟩) "t1" =
        some ElementStatus.erase ∧
    getKey (initPage ⟨"p1",
      some [.mk "t1" [], .mk "t2" [], .mk "im1" []], ["t1"]⟩) "t2" =
        some ElementStatus.keep ∧
    getKey (initPage ⟨"p1",
      some [.mk "t1" [], .mk "t2" [], .mk "im1" []], ["t1"]⟩) "zz" = none := by
  refine ⟨?_, ?_, ?_⟩ <;>
    rw [C1_init_page_map _ [.mk "t1" [], .mk "t2" [], .mk "im1" []] rfl] <;>
    simp [traverseIds]

/-- C1 counterexample: an element whose id is the empty string is
reachable by depth-first traversal, yet the initializer gives it no
entry, so the key set is not exactly the set of traversed ids. -/
theorem C1_counterexample :
    "" ∈ traverseIds [LayoutElement.mk "" []] ∧
    getKey (initPage ⟨"p", some [LayoutElement.mk "" []], []⟩) "" = none := by
  constructor
  · simp [traverseIds]
  · simp [initPage, getAllElementIds, getKey]

/-! ### Claim C2: reset restores the init baseline -/

/-- C2 (amended): after any finite sequence of toggle and bulk-set
operations in which every toggle aimed at the given page uses an
element id the page's init record already contains, resetting that
page restores exactly the record produced by init for that page (the
baseline snapshot, not all-keep or all-erase), and reset is idempotent.
(A toggle with an id outside the page's init record inserts a new key
that reset then keeps, so the unrestricted claim fails.) -/
theorem C2_reset_roundtrip (pds : List PageData) (pd : PageData)
    (ops : List VOp) (hmem : pd ∈ pds)
    (hnodup : (pds.map PageData.pageId).Nodup)
    (hops : ∀ e, VOp.toggleOp pd.pageId e ∈ ops →
      e ∈ keysOf (initPage pd)) :
    getKey (reset (applyOps (initMap pds) ops) pd.pageId
        pd.confirmedElementIds) pd.pageId =
      getKey (initMap pds) pd.pageId ∧
    ∀ (m : VerificationMap) (p : String) (c : List String),
      reset (reset m p c) p c = reset m p c := by
  constructor
  · have h0 : getKey (initMap pds) pd.pageId = some (initPage pd) :=
      getKey_initMap pds pd hnodup hmem
    have hkeys0 :
        keysOf ((getKey (initMap pds) pd.pageId).getD []) =
          keysOf (initPage pd) := by
      rw [h0, Option.getD_some]
    have hkeys :
        keysOf ((getKey (applyOps (initMap pds) ops) pd.pageId).getD []) =
          keysOf (initPage pd) :=
      applyOps_keysOf_page pd.pageId (keysOf (initPage pd)) ops hops
        (initMap pds) hkeys0
    rw [reset_def, getKey_assign_self, h0]
    refine congrArg some ?_
    refine eq_of_keysOf_eq_of_values
      (fun id =>
        if id ∈ pd.confirmedElementIds then ElementStatus.erase
        else ElementStatus.keep) _ _ ?_ ?_ (initPage_values pd)
    · rw [← hkeys]
      simp [keysOf, List.map_map]
    · intro q hq
      rcases List.mem_map.mp hq with ⟨r, _, he⟩
      rw [← he]
  · intro m p c
    rw [reset_def (reset m p c) p c, reset_def m p c, getKey_assign_self]
    simp only [Option.getD_some, List.map_map]
    have hgg :
        ((getKey m p).getD []).map
          ((fun q : String × ElementStatus =>
              (q.1,
               if q.1 ∈ c then ElementStatus.erase
               else ElementStatus.keep)) ∘
            fun q : String × ElementStatus =>
              (q.1,
               if q.1 ∈ c then ElementStatus.erase
               else ElementStatus.keep)) =
          ((getKey m p).getD []).map
            (fun q : String × ElementStatus =>
              (q.1,
               if q.1 ∈ c then ElementStatus.erase
               else ElementStatus.keep)) :=
      List.map_congr_left (fun q _ => rfl)
    rw [hgg]
    exact assign_assign_self m p _

/-- Witness for C2 at the spec's example page after a toggle and a
bulk set, plus a concrete idempotence instance. -/
theorem C2_reset_roundtrip_witness :
    getKey (reset (applyOps (initMap [⟨"p1",
        some [.mk "t1" [], .mk "t2" [], .mk "im1" []], ["t1"]⟩])
        [VOp.toggleOp "p1" "t2", VOp.bulkSetOp "p1" ElementStatus.erase])
        "p1" ["t1"]) "p1" =
      getKey (initMap [⟨"p1",
        some [.mk "t1" [], .mk "t2" [], .mk "im1" []], ["t1"]⟩]) "p1" ∧
    reset (reset [("p", [("a", ElementStatus.erase)])] "p" []) "p" [] =
      reset [("p", [("a", ElementStatus.erase)])] "p" [] := by
  have h := C2_reset_roundtrip
    [⟨"p1", some [.mk "t1" [], .mk "t2" [], .mk "im1" []], ["t1"]⟩]
    ⟨"p1", some [.mk "t1" [], .mk "t2" [], .mk "im1" []], ["t1"]⟩
    [VOp.toggleOp "p1" "t2", VOp.bulkSetOp "p1" ElementStatus.erase]
    (by simp)
    (by simp)
    (by
      intro e he
      simp only [List.mem_cons, List.not_mem_nil, or_false] at he
      rcases he with he | he
      · cases he
        simp [initPage, getAllElementIds, keysOf, assign]
      · cases he)
  exact ⟨h.1, h.2 [("p", [("a", ElementStatus.erase)])] "p" []⟩

/-- C2 counterexample: a toggle with an element id outside the page's
tree enlarges the page's record, and the subsequent reset keeps the
extra key, so the reset result is not the map produced by init. -/
theorem C2_counterexample :
    getKey (reset (applyOps
        (initMap [⟨"p", some [LayoutElement.mk "a" []], []⟩])
        [VOp.toggleOp "p" "b"]) "p" []) "p" =
      some [("a", ElementStatus.keep), ("b", ElementStatus.keep)] ∧
    getKey (initMap [⟨"p", some [LayoutElement.mk "a" []], []⟩]) "p" =
      some [("a", ElementStatus.keep)] := by
  constructor <;>
    simp [initMap, initPage, getAllElementIds, applyOps, applyOp, toggle,
      reset, assign, getKey, keysOf]

/-! ### Claim C3: materialize after bulk set -/

/-- C3: `handleConfirm`'s materialization is a pure read returning
exactly the ids whose current status is `erase`; immediately after a
bulk set to `erase` it returns all known element ids of that page, and
immediately after a bulk set to `keep` it returns the empty list for
that page. -/
theorem C3_materialize_reads_erase (pds : List PageData)
    (m : VerificationMap) (pd : PageData) (hmem : pd ∈ pds)
    (hnodup : (pds.map PageData.pageId).Nodup) :
    getKey (materialize pds (bulkSet m pd.pageId ElementStatus.erase))
        pd.pageId = some (keysOf ((getKey m pd.pageId).getD [])) ∧
    getKey (materialize pds (bulkSet m pd.pageId ElementStatus.keep))
        pd.pageId = some [] ∧
    ∀ m' : VerificationMap,
      getKey (materialize pds m') pd.pageId =
        some ((((getKey m' pd.pageId).getD []).filter
          (fun q => q.2 = ElementStatus.erase)).map (fun q => q.1)) := by
  have hmat : ∀ m' : VerificationMap,
      getKey (materialize pds m') pd.pageId =
        some ((((getKey m' pd.pageId).getD []).filter
          (fun q => q.2 = ElementStatus.erase)).map (fun q => q.1)) := by
    intro m'
    exact getKey_foldl_assignKey_mem
      (fun x => (((getKey m' x.pageId).getD []).filter
        (fun q => q.2 = ElementStatus.erase)).map (fun q => q.1))
      PageData.pageId pds [] pd hnodup hmem
  refine ⟨?_, ?_, hmat⟩
  · rw [hmat, bulkSet_def, getKey_assign_self]
    simp only [Option.getD_some]
    have hf : (((getKey m pd.pageId).getD []).map
        (fun q => (q.1, ElementStatus.erase))).filter
          (fun q => q.2 = ElementStatus.erase) =
        ((getKey m pd.pageId).getD []).map
          (fun q => (q.1, ElementStatus.erase)) := by
      apply List.filter_eq_self.mpr
      intro q hq
      rcases List.mem_map.mp hq with ⟨r, _, he⟩
      rw [← he]
      simp
    rw [hf, List.map_map]
    simp [keysOf]
  · rw [hmat, bulkSet_def, getKey_assign_self]
    simp only [Option.getD_some]
    have hf : (((getKey m pd.pageId).getD []).map
        (fun q => (q.1, ElementStatus.keep))).filter
          (fun q => q.2 = ElementStatus.erase) = [] := by
      rw [List.filter_eq_nil_iff]
      intro q hq
      rcases List.mem_map.mp hq with ⟨r, _, he⟩
      rw [← he]
      simp
    rw [hf]
    simp

/-- Witness for C3 on a concrete single-page state. -/
theorem C3_materialize_reads_erase_witness :
    getKey (materialize [⟨"p", some [LayoutElement.mk "a" []], []⟩]
        (bulkSet (initMap [⟨"p", some [LayoutElement.mk "a" []], []⟩])
          "p" ElementStatus.erase)) "p" = some ["a"] ∧
    getKey (materialize [⟨"p", some [LayoutElement.mk "a" []], []⟩]
        (bulkSet (initMap [⟨"p", some [LayoutElement.mk "a" []], []⟩])
          "p" ElementStatus.keep)) "p" = some [] := by
  have h := C3_materialize_reads_erase
    [⟨"p", some [LayoutElement.mk "a" []], []⟩]
    (initMap [⟨"p", some [LayoutElement.mk "a" []], []⟩])
    ⟨"p", some [LayoutElement.mk "a" []], []⟩
    (by simp) (by simp)
  refine ⟨?_, ?_⟩
  · rw [h.1]
    simp [initMap, initPage, getAllElementIds, getKey, assign, keysOf]
  · exact h.2.1

/-! ### Claim C4: toggle on unknown element ids -/

/-- C4 (amended): `handleElementClick`'s toggle flips an element's
status between `keep` and `erase` when the id has an entry in the
page's status map; when the id has no entry it does *not* fail — it
inserts the id with status `keep` — and in either case all other
element entries of the page are untouched. -/
theorem C4_toggle_behavior (m : VerificationMap) (pageId elementId : String) :
    getKey ((getKey (toggle m pageId elementId) pageId).getD []) elementId =
      some (match getKey ((getKey m pageId).getD []) elementId with
            | some ElementStatus.keep => ElementStatus.erase
            | some ElementStatus.erase => ElementStatus.keep
            | none => ElementStatus.keep) ∧
    ∀ e, e ≠ elementId →
      getKey ((getKey (toggle m pageId elementId) pageId).getD []) e =
        getKey ((getKey m pageId).getD []) e := by
  constructor
  · show getKey ((getKey (assign m pageId _) pageId).getD []) elementId = _
    rw [getKey_assign_self]
    simp only [Option.getD_some]
    rw [getKey_assign_self]
    cases hs : getKey ((getKey m pageId).getD []) elementId with
    | none => simp [hs]
    | some st => cases st <;> simp [hs]
  · intro e he
    show getKey ((getKey (assign m pageId _) pageId).getD []) e = _
    rw [getKey_assign_self]
    simp only [Option.getD_some]
    exact getKey_assign_ne _ _ _ _ he

/-- Witness for C4 on a concrete map: a present `keep` entry flips to
`erase` and a sibling entry is untouched. -/
theorem C4_toggle_behavior_witness :
    getKey ((getKey (toggle [("p", [("a", ElementStatus.keep),
        ("b", ElementStatus.erase)])] "p" "a") "p").getD []) "a" =
      some ElementStatus.erase ∧
    getKey ((getKey (toggle [("p", [("a", ElementStatus.keep),
        ("b", ElementStatus.erase)])] "p" "a") "p").getD []) "b" =
      some ElementStatus.erase := by
  have h := C4_toggle_behavior
    [("p", [("a", ElementStatus.keep), ("b", ElementStatus.erase)])] "p" "a"
  refine ⟨?_, ?_⟩
  · rw [h.1]; rfl
  · rw [h.2 "b" (by decide)]; rfl

/-- C4 counterexample: toggling an id that is not part of the page's
known tree does not fail and does not leave the map unchanged — the id
is inserted with status `keep`. -/
theorem C4_counterexample :
    getKey ((getKey (initMap [⟨"p", some [LayoutElement.mk "a" []], []⟩])
        "p").getD []) "b" = none ∧
    getKey ((getKey (toggle (initMap
        [⟨"p", some [LayoutElement.mk "a" []], []⟩]) "p" "b") "p").getD [])
        "b" = some ElementStatus.keep := by
  constructor <;>
    simp [initMap, initPage, getAllElementIds, getKey, assign, toggle,
      keysOf]

/-! ### Claim C9: missing-status rendering default -/

/-- C9: `VerificationCanvas.renderElement` displays an element whose id
has no entry in the current status map with status `erase` — the
missing-status default is `erase`, not `keep`. -/
theorem C9_missing_defaults_to_erase (elementStatus : StatusMap)
    (elementId : String) (h : getKey elementStatus elementId = none) :
    renderStatus elementStatus elementId = ElementStatus.erase := by
  simp [renderStatus, h]

/-- Witness for C9: a concrete map without the rendered id. -/
theorem C9_missing_defaults_to_erase_witness :
    getKey ([("a", ElementStatus.keep)] : StatusMap) "b" = none ∧
    renderStatus [("a", ElementStatus.keep)] "b" = ElementStatus.erase :=
  ⟨rfl, C9_missing_defaults_to_erase [("a", ElementStatus.keep)] "b" rfl⟩

/-! ### Claim C10: mutations are per-page frame-local -/

/-- C10: every verification-state mutation — toggle, bulk set
(select-all / deselect-all) and reset — applied to one page leaves the
status map of every other page unchanged. -/
theorem C10_other_pages_unchanged (m : VerificationMap) (p q e : String)
    (st : ElementStatus) (c : List String) (hq : q ≠ p) :
    getKey (toggle m p e) q = getKey m q ∧
    getKey (bulkSet m p st) q = getKey m q ∧
    getKey (reset m p c) q = getKey m q := by
  refine ⟨?_, ?_, ?_⟩
  · exact getKey_assign_ne _ _ _ _ hq
  · exact getKey_assign_ne _ _ _ _ hq
  · exact getKey_assign_ne _ _ _ _ hq

/-- Witness for C10 on a concrete two-page map. -/
theorem C10_other_pages_unchanged_witness :
    getKey (toggle [("p", [("a", ElementStatus.keep)]),
        ("q", [("b", ElementStatus.erase)])] "p" "a") "q" =
      some [("b", ElementStatus.erase)] ∧
    getKey (bulkSet [("p", [("a", ElementStatus.keep)]),
        ("q", [("b", ElementStatus.erase)])] "p" ElementStatus.erase) "q" =
      some [("b", ElementStatus.erase)] ∧
    getKey (reset [("p", [("a", ElementStatus.keep)]),
        ("q", [("b", ElementStatus.erase)])] "p" []) "q" =
      some [("b", ElementStatus.erase)] := by
  have h := C10_other_pages_unchanged
    [("p", [("a", ElementStatus.keep)]), ("q", [("b", ElementStatus.erase)])]
    "p" "q" "a" ElementStatus.erase [] (by decide)
  refine ⟨?_, ?_, ?_⟩
  · rw [h.1]; rfl
  · rw [h.2.1]; rfl
  · rw [h.2.2]; rfl

/-! ### Claim C5: retry with exponential backoff -/

/-- When every attempt from index `i` on fails, the retry loop performs
exactly the remaining attempts, sleeping `2^j * 1000` ms after attempt
`j`, and ends by rethrowing the last error. -/
theorem withRetryAux_all_fail {ε α : Type} (attempt : Nat → Except ε α)
    (errs : Nat → ε) (retries : Nat) :
    ∀ (k i : Nat) (lastError : Option ε), retries - i = k →
      (∀ j, i ≤ j → j < retries → attempt j = .error (errs j)) →
      withRetryAux attempt retries lastError i =
        (.error (if i < retries then some (errs (retries - 1)) else lastError),
         (List.range' i (retries - i)).map (fun j => 2 ^ j * 1000)) := by
  intro k
  induction k with
  | zero =>
      intro i lastError hk _
      have hge : ¬ i < retries := by omega
      rw [withRetryAux, if_neg hge, if_neg hge, hk]
      simp
  | succ k ih =>
      intro i lastError hk hfail
      have hlt : i < retries := by omega
      rw [withRetryAux, if_pos hlt, hfail i le_rfl hlt]
      have ih' := ih (i + 1) (some (errs i))
        (by omega) (fun j hj hjr => hfail j (by omega) hjr)
      simp only [ih']
      rw [Prod.mk.injEq]
      constructor
      · by_cases h2 : i + 1 < retries
        · rw [if_pos h2, if_pos hlt]
        · rw [if_neg h2, if_pos hlt]
          have : retries - 1 = i := by omega
          rw [this]
      · have hr : retries - i = (retries - (i + 1)) + 1 := by omega
        rw [hr, List.range'_succ, List.map_cons]

/-- C5: when every attempt of a reconstruction model call fails
transiently, the call is retried exactly the configured number of
times with backoff delays `1000 * 2^i` ms — the delay doubles per
attempt from the fixed 1000 ms base — and once the retries are
exhausted the operation surfaces `ReconstructionTimeout` instead of
succeeding silently or retrying forever. -/
theorem C5_retry_exhaustion {ε α : Type} (attempt : Nat → Except ε α)
    (errs : Nat → ε) (retries : Nat)
    (hfail : ∀ i, i < retries → attempt i = .error (errs i)) :
    reconstructWithRetry attempt retries =
      (.error ReconError.ReconstructionTimeout,
       (List.range retries).map (fun i => 2 ^ i * 1000)) ∧
    ((List.range retries).map (fun i => 2 ^ i * 1000)).length = retries ∧
    (0 < retries →
      ((List.range retries).map (fun i => 2 ^ i * 1000)).getD 0 0 = 1000) ∧
    ∀ i, i + 1 < retries →
      ((List.range retries).map (fun i => 2 ^ i * 1000)).getD (i + 1) 0 =
        2 * ((List.range retries).map (fun i => 2 ^ i * 1000)).getD i 0 := by
  have hw := withRetryAux_all_fail attempt errs retries retries 0 none
    (by omega) (fun j _ hj => hfail j hj)
  have hget : ∀ i, i < retries →
      ((List.range retries).map (fun j => 2 ^ j * 1000)).getD i 0 =
        2 ^ i * 1000 := by
    intro i hi
    simp [List.getD, hi]
  refine ⟨?_, by simp, ?_, ?_⟩
  · unfold reconstructWithRetry withRetry
    rw [hw]
    simp only [Nat.sub_zero]
    rw [List.range_eq_range']
  · intro h0
    rw [hget 0 h0]
    norm_num
  · intro i hi
    rw [hget (i + 1) hi, hget i (by omega), pow_succ]
    ring

/-- Witness for C5 at three always-failing attempts: the call surfaces
`ReconstructionTimeout` after delays 1000, 2000, 4000 ms. -/
theorem C5_retry_exhaustion_witness :
    reconstructWithRetry (fun _ => (Except.error 0 : Except Nat Nat)) 3 =
      (Except.error ReconError.ReconstructionTimeout, [1000, 2000, 4000]) ∧
    ([1000, 2000, 4000] : List Nat).length = 3 := by
  have h := C5_retry_exhaustion (fun _ => (Except.error 0 : Except Nat Nat))
    (fun _ => 0) 3 (fun i _ => rfl)
  constructor
  · rw [h.1]
    congr 1
  · rfl

/-! ### Orchestrator invariant lemmas -/

/-- `createTask` satisfies the orchestrator invariant. -/
theorem orchInv_createTask (pages : List Nat) (mc : Bool) :
    OrchInv (createTask pages mc) := by
  unfold OrchInv createTask
  refine ⟨?_, ?_, ?_, ?_, ?_, ?_, ?_⟩ <;> simp

/-- An accepted event never changes the task's configuration. -/
theorem step_config {t t' : OrchTask} {e : OrchEvent}
    (h : step t e = some t') :
    t'.manualConfirmation = t.manualConfirmation ∧ t'.pages = t.pages := by
  cases e <;>
    (simp only [step] at h
     split at h
     · obtain rfl := (Option.some.inj h).symm
       exact ⟨rfl, rfl⟩
     · exact Option.noConfusion h)

/-- An accepted event preserves the orchestrator invariant. -/
theorem step_inv {t t' : OrchTask} {e : OrchEvent}
    (hinv : OrchInv t) (h : step t e = some t') : OrchInv t' := by
  obtain ⟨i1, i2, i3, i4, i5, i6, i7⟩ := hinv
  cases e <;>
    (simp only [step] at h
     split at h
     · rename_i hc
       obtain rfl := (Option.some.inj h).symm
       unfold OrchInv
       refine ⟨?_, ?_, ?_, ?_, ?_, ?_, ?_⟩ <;> simp_all [List.mem_cons]
     · exact Option.noConfusion h)

/-- Terminal states accept no event. -/
theorem step_terminal (t : OrchTask) (e : OrchEvent)
    (h : t.status = TaskStatus.COMPLETED ∨ t.status = TaskStatus.FAILED) :
    step t e = none := by
  rcases h with h | h <;> cases e <;> simp [step, h]

/-- Running any event sequence preserves the orchestrator invariant. -/
theorem runEvents_inv (t : OrchTask) (es : List OrchEvent)
    (h : OrchInv t) : OrchInv (runEvents t es) := by
  induction es generalizing t with
  | nil => exact h
  | cons e rest ih =>
      show OrchInv (runEvents ((step t e).getD t) rest)
      refine ih _ ?_
      cases hs : step t e with
      | none => simpa using h
      | some t' => simpa using step_inv h hs

/-- Running any event sequence preserves the task's configuration. -/
theorem runEvents_config (t : OrchTask) (es : List OrchEvent) :
    (runEvents t es).manualConfirmation = t.manualConfirmation ∧
    (runEvents t es).pages = t.pages := by
  induction es generalizing t with
  | nil => exact ⟨rfl, rfl⟩
  | cons e rest ih =>
      have hstep : ((step t e).getD t).manualConfirmation =
          t.manualConfirmation ∧ ((step t e).getD t).pages = t.pages := by
        cases hs : step t e with
        | none => exact ⟨rfl, rfl⟩
        | some t' => simpa using step_config hs
      have hr := ih ((step t e).getD t)
      exact ⟨hr.1.trans hstep.1, hr.2.trans hstep.2⟩

/-! ### Claim C6: manual confirmation gates reconstruction -/

/-- C6: a task created with `manualConfirmation = true` reaches
AWAITING_VERIFICATION — which is only entered once every page is
extracted — before any Reconstruct call occurs, never reaches COMPLETED
without an intervening accepted `confirm`, and `confirm` is only
accepted while the task is in AWAITING_VERIFICATION. -/
theorem C6_verification_gate (pages : List Nat) (es : List OrchEvent)
    (hne : pages ≠ []) :
    ((runEvents (createTask pages true) es).everReconstruct = true →
      (runEvents (createTask pages true) es).everAwaiting = true) ∧
    ((runEvents (createTask pages true) es).status = TaskStatus.COMPLETED →
      (runEvents (createTask pages true) es).confirmed = true) ∧
    (∀ t : OrchTask, (step t OrchEvent.confirm).isSome = true →
      t.status = TaskStatus.AWAITING_VERIFICATION) ∧
    (∀ t : OrchTask, (step t OrchEvent.enterAwaiting).isSome = true →
      ∀ q ∈ t.pages, q ∈ t.extracted) := by
  obtain ⟨i1, i2, i3, i4, i5, i6, i7⟩ :=
    runEvents_inv (createTask pages true) es (orchInv_createTask pages true)
  have hcfg := runEvents_config (createTask pages true) es
  have hmc : (runEvents (createTask pages true) es).manualConfirmation =
      true := hcfg.1
  refine ⟨?_, ?_, ?_, ?_⟩
  · intro hrec
    exact i2 (i3 hmc hrec)
  · intro hcomp
    have hall := i6 hcomp
    obtain ⟨p, hp⟩ := List.exists_mem_of_ne_nil pages hne
    have hp' : p ∈ (runEvents (createTask pages true) es).pages := by
      rw [hcfg.2]
      exact hp
    have hpr := i4 p (hall p hp')
    have hne' : (runEvents (createTask pages true) es).reconstructed ≠ [] :=
      fun hnil => by rw [hnil] at hpr; cases hpr
    exact i3 hmc (i5 hne')
  · intro t h
    simp only [step] at h
    split at h
    · rename_i hc
      exact hc
    · simp at h
  · intro t h
    simp only [step] at h
    split at h
    · rename_i hc
      exact hc.2.2
    · simp at h

/-- Witness for C6 on a one-page task run through the full
verification flow. -/
theorem C6_verification_gate_witness :
    (runEvents (createTask [1] true) [.startProcessing, .extractDone 1,
      .enterAwaiting, .confirm, .reconstructDone 1, .assembleDone 1,
      .complete]).confirmed = true ∧
    (runEvents (createTask [1] true) [.startProcessing, .extractDone 1,
      .enterAwaiting, .confirm, .reconstructDone 1, .assembleDone 1,
      .complete]).everAwaiting = true ∧
    (runEvents (createTask [1] true) [.startProcessing, .extractDone 1,
      .enterAwaiting]).status = TaskStatus.AWAITING_VERIFICATION := by
  have h := C6_verification_gate [1] [.startProcessing, .extractDone 1,
    .enterAwaiting, .confirm, .reconstructDone 1, .assembleDone 1,
    .complete] (by simp)
  refine ⟨h.2.1 rfl, h.1 rfl, ?_⟩
  exact h.2.2.1 (runEvents (createTask [1] true) [.startProcessing,
    .extractDone 1, .enterAwaiting]) rfl

/-! ### Claim C7: page failure fails the whole task -/

/-- C7: an accepted Reconstruct or Assemble retry-exhaustion event on
any page moves the whole task to FAILED with the failing stage and page
recorded in the structured error; a task whose error is recorded is in
FAILED (so it is never reported COMPLETED); and the terminal states
COMPLETED and FAILED accept no further transition. -/
theorem C7_failure_fails_task (pages : List Nat) (mc : Bool)
    (es : List OrchEvent) :
    ((runEvents (createTask pages mc) es).error ≠ none →
      (runEvents (createTask pages mc) es).status = TaskStatus.FAILED) ∧
    (∀ (t t' : OrchTask) (p : Nat),
      step t (OrchEvent.reconstructFail p) = some t' →
        t'.status = TaskStatus.FAILED ∧
        t'.error = some ⟨Stage.Reconstruct, p⟩) ∧
    (∀ (t t' : OrchTask) (p : Nat),
      step t (OrchEvent.assembleFail p) = some t' →
        t'.status = TaskStatus.FAILED ∧
        t'.error = some ⟨Stage.Assemble, p⟩) ∧
    (∀ (t : OrchTask) (e : OrchEvent),
      t.status = TaskStatus.COMPLETED ∨ t.status = TaskStatus.FAILED →
        step t e = none) := by
  obtain ⟨i1, i2, i3, i4, i5, i6, i7⟩ :=
    runEvents_inv (createTask pages mc) es (orchInv_createTask pages mc)
  refine ⟨i7, ?_, ?_, step_terminal⟩
  · intro t t' p h
    simp only [step] at h
    split at h
    · obtain rfl := (Option.some.inj h).symm
      exact ⟨rfl, rfl⟩
    · exact Option.noConfusion h
  · intro t t' p h
    simp only [step] at h
    split at h
    · obtain rfl := (Option.some.inj h).symm
      exact ⟨rfl, rfl⟩
    · exact Option.noConfusion h

/-- Witness for C7: page 2 of 3 fails Reconstruct after pages 1 and 3
succeed — the whole task is FAILED with `error.page = 2` and no
further event (for example `complete`) is accepted. -/
theorem C7_failure_fails_task_witness :
    (runEvents (createTask [1, 2, 3] false) [.startProcessing,
      .extractDone 1, .extractDone 2, .extractDone 3,
      .reconstructDone 1, .assembleDone 1, .reconstructDone 3,
      .assembleDone 3, .reconstructFail 2]).status = TaskStatus.FAILED ∧
    (runEvents (createTask [1, 2, 3] false) [.startProcessing,
      .extractDone 1, .extractDone 2, .extractDone 3,
      .reconstructDone 1, .assembleDone 1, .reconstructDone 3,
      .assembleDone 3, .reconstructFail 2]).error =
        some ⟨Stage.Reconstruct, 2⟩ ∧
    step (runEvents (createTask [1, 2, 3] false) [.startProcessing,
      .extractDone 1, .extractDone 2, .extractDone 3,
      .reconstructDone 1, .assembleDone 1, .reconstructDone 3,
      .assembleDone 3, .reconstructFail 2]) OrchEvent.complete = none := by
  have h := C7_failure_fails_task [1, 2, 3] false [.startProcessing,
    .extractDone 1, .extractDone 2, .extractDone 3,
    .reconstructDone 1, .assembleDone 1, .reconstructDone 3,
    .assembleDone 3, .reconstructFail 2]
  have herr : (runEvents (createTask [1, 2, 3] false) [.startProcessing,
      .extractDone 1, .extractDone 2, .extractDone 3,
      .reconstructDone 1, .assembleDone 1, .reconstructDone 3,
      .assembleDone 3, .reconstructFail 2]).error =
        some ⟨Stage.Reconstruct, 2⟩ := rfl
  have hst := h.1 (by rw [herr]; simp)
  exact ⟨hst, herr, h.2.2.2 _ OrchEvent.complete (Or.inr hst)⟩

/-! ### Claim C8: reconstruction pixel contract -/

/-- A point outside every dilated erase region is outside every erase
region. -/
theorem inRegions_of_dilate_false (rs : List Rect) (margin x y : Nat)
    (h : inRegions (dilateRegions rs margin) x y = false) :
    inRegions rs x y = false := by
  rw [inRegions, List.any_eq_false] at h ⊢
  intro r hr
  have hd := h (r.dilate margin) (List.mem_map.mpr ⟨r, hr, rfl⟩)
  simp only [Rect.containsPt, Rect.dilate, Bool.and_eq_true,
    decide_eq_true_eq] at hd ⊢
  omega

/-- C8: for every page image and erase-region set, `reconstruct`
returns an image of the input's dimensions for every method; with
`fast` or `offline` every pixel strictly outside the erase regions is
identical to the input pixel; with `generative` or `hybrid` this pixel
identity holds outside the erase regions dilated by the fixed margin. -/
theorem C8_reconstruct_contract (img : PageImage) (regions : List Rect)
    (margin : Nat) (fill repaint : Nat → Nat → Nat) :
    (∀ method : InpaintMethod,
      (reconstruct img regions method margin fill repaint).width =
        img.width ∧
      (reconstruct img regions method margin fill repaint).height =
        img.height) ∧
    (∀ x y : Nat, inRegions regions x y = false →
      (reconstruct img regions InpaintMethod.fast margin fill
        repaint).pixel x y = img.pixel x y ∧
      (reconstruct img regions InpaintMethod.offline margin fill
        repaint).pixel x y = img.pixel x y) ∧
    (∀ x y : Nat, inRegions (dilateRegions regions margin) x y = false →
      (reconstruct img regions InpaintMethod.generative margin fill
        repaint).pixel x y = img.pixel x y ∧
      (reconstruct img regions InpaintMethod.hybrid margin fill
        repaint).pixel x y = img.pixel x y) := by
  refine ⟨?_, ?_, ?_⟩
  · intro method
    cases method <;> exact ⟨rfl, rfl⟩
  · intro x y h
    constructor <;> simp [reconstruct, reconstructFast, h]
  · intro x y h
    have h0 := inRegions_of_dilate_false regions margin x y h
    constructor
    · simp [reconstruct, reconstructGenerative, h]
    · simp [reconstruct, reconstructGenerative, reconstructFast, h, h0]

/-- Witness for C8 on a concrete image with erase region
`[(0,0)-(10,10)]` and margin 2, checked at the outside point
`(20, 20)`. -/
theorem C8_reconstruct_contract_witness :
    (reconstruct ⟨100, 50, fun x y => x + y⟩ [⟨0, 0, 10, 10⟩]
      InpaintMethod.fast 2 (fun _ _ => 7) (fun _ _ => 9)).pixel 20 20 =
        40 ∧
    (reconstruct ⟨100, 50, fun x y => x + y⟩ [⟨0, 0, 10, 10⟩]
      InpaintMethod.hybrid 2 (fun _ _ => 7) (fun _ _ => 9)).pixel 20 20 =
        40 ∧
    (reconstruct ⟨100, 50, fun x y => x + y⟩ [⟨0, 0, 10, 10⟩]
      InpaintMethod.fast 2 (fun _ _ => 7) (fun _ _ => 9)).width = 100 := by
  have h := C8_reconstruct_contract ⟨100, 50, fun x y => x + y⟩
    [⟨0, 0, 10, 10⟩] 2 (fun _ _ => 7) (fun _ _ => 9)
  refine ⟨?_, ?_, (h.1 InpaintMethod.fast).1⟩
  · have hf := (h.2.1 20 20 (by decide)).1
    simpa using hf
  · have hh := (h.2.2 20 20 (by decide)).2
    simpa using hh

end BananaSlides
